import Mathlib

/-!
Shallow embedding of `scripts/chess.py`, a minimal chess engine:
board representation, per-piece pseudo-legal move generation, check
detection, move-string parsing, and the turn-controller loop body
(modelled as `attemptMove`).  Coordinates are `Int` (Python ints);
boards are lists of rows of characters, as in the source.
-/

namespace Chess

/-- Python list read `l[i]`: indices in `[0, len)` read directly, indices in
`[-len, 0)` wrap from the end, anything else raises `IndexError`
(modelled as `none`). -/
def pyIdx (n : Nat) (i : Int) : Option Nat :=
  if 0 ≤ i ∧ i < n then some i.toNat
  else if -(n : Int) ≤ i ∧ i < 0 then some (((n : Int) + i).toNat)
  else none

def pyGet {α : Type} (l : List α) (i : Int) : Option α :=
  match pyIdx l.length i with
  | some j => l.get? j
  | none => none

/-- Python list write `l[i] = v`. Out-of-range writes raise `IndexError` in
Python; every call site below supplies an in-range index, so the `none`
branch (returning `l` unchanged) is never reached on real inputs. -/
def pySet {α : Type} (l : List α) (i : Int) (v : α) : List α :=
  match pyIdx l.length i with
  | some j => l.set j v
  | none => l

/-- `board` in the source: a list of 8 rows, each a list of 8 characters. -/
abbrev Board := List (List Char)

/-- The source's square read `board[y][x]`, kept fallible: `none` models the
`IndexError` that Python raises outside `[-8, 8) × [-8, 8)`. -/
def pieceAt (b : Board) (x y : Int) : Option Char :=
  match pyGet b y with
  | some row => pyGet row x
  | none => none

/-- Total square read used inside the generator, whose accesses are guarded
by `in_bounds`; the default is never reached there on an 8×8 board. -/
def atB (b : Board) (x y : Int) : Char :=
  (pieceAt b x y).getD '!'

/-- The source's square write `clone[y][x] = v` (nested-list update). -/
def setB (b : Board) (x y : Int) (v : Char) : Board :=
  match pyGet b y with
  | some row => pySet b y (pySet row x v)
  | none => b

/-- `new_board()` from the source. -/
def new_board : Board :=
  [ "rnbqkbnr".toList
  , "pppppppp".toList
  , "........".toList
  , "........".toList
  , "........".toList
  , "........".toList
  , "PPPPPPPP".toList
  , "RNBQKBNR".toList ]

/-- `color(piece)` from the source: `None` for `'.'`, `'w'` for uppercase,
`'b'` otherwise. -/
def color (piece : Char) : Option Char :=
  if piece = '.' then none
  else if piece.isUpper then some 'w' else some 'b'

/-- `in_bounds(x, y)` from the source. -/
def in_bounds (x y : Int) : Bool :=
  decide (0 ≤ x) && decide (x < 8) && decide (0 ≤ y) && decide (y < 8)

/-- The test of the source's `add` helper: the target square holds a piece of
the mover's own color. -/
def friendlyAt (b : Board) (c : Char) (nx ny : Int) : Bool :=
  decide (atB b nx ny ≠ '.') && decide (color (atB b nx ny) = some c)

/-- The source's `add(nx, ny)` helper: append the square unless it is out of
bounds or friendly-occupied (its Boolean result is unused by callers). -/
def addSq (b : Board) (c : Char) (nx ny : Int) : List (Int × Int) :=
  if in_bounds nx ny && !friendlyAt b c nx ny then [(nx, ny)] else []

/-- The body of the source's `ray(dx, dy)` while-loop, with explicit fuel.
Each loop iteration advances one step in a direction with `dx ≠ 0` or
`dy ≠ 0`, so at most 8 consecutive squares can be in bounds and fuel 8
reproduces the loop exactly (see `steps_le_seven` below). -/
def rayAux (b : Board) (c : Char) (dx dy : Int) : Nat → Int → Int → List (Int × Int)
  | 0, _, _ => []
  | fuel + 1, nx, ny =>
    if in_bounds nx ny then
      if friendlyAt b c nx ny then []
      else
        (nx, ny) ::
          (if atB b nx ny = '.' then rayAux b c dx dy fuel (nx + dx) (ny + dy) else [])
    else []

/-- `ray(dx, dy)` from `moves_for`, started (as in the source) one step away
from the piece's own square. -/
def ray (b : Board) (c : Char) (x y dx dy : Int) : List (Int × Int) :=
  rayAux b c dx dy 8 (x + dx) (y + dy)

/-- The pawn branch of `moves_for`: single push, double push from the start
row, then the two diagonal captures, in source order. -/
def pawnMoves (b : Board) (c : Char) (x y : Int) : List (Int × Int) :=
  let direction : Int := if c = 'w' then -1 else 1
  let start_row : Int := if c = 'w' then 6 else 1
  let one := y + direction
  let fwd : List (Int × Int) :=
    if in_bounds x one && decide (atB b x one = '.') then
      (x, one) ::
        (if decide (y = start_row) && decide (atB b x (y + 2 * direction) = '.') then
          [(x, y + 2 * direction)]
        else [])
    else []
  let caps : List (Int × Int) :=
    ([-1, 1] : List Int).filterMap fun dx =>
      let nx := x + dx
      let ny := y + direction
      if in_bounds nx ny && decide (atB b nx ny ≠ '.') &&
          decide (color (atB b nx ny) ≠ some c) then
        some (nx, ny)
      else none
  fwd ++ caps

def knightOffsets : List (Int × Int) :=
  [(1, 2), (2, 1), (-1, 2), (-2, 1), (1, -2), (2, -1), (-1, -2), (-2, -1)]

/-- King loop order from the source: `dx` outer, `dy` inner, skipping (0,0). -/
def kingOffsets : List (Int × Int) :=
  [(-1, -1), (-1, 0), (-1, 1), (0, -1), (0, 1), (1, -1), (1, 0), (1, 1)]

/-- `moves_for(board, x, y)` from the source. -/
def moves_for (b : Board) (x y : Int) : List (Int × Int) :=
  let piece := atB b x y
  match color piece with
  | none => []
  | some c =>
    let p := piece.toLower
    if p = 'p' then pawnMoves b c x y
    else if p = 'n' then
      knightOffsets.foldl (fun res o => res ++ addSq b c (x + o.1) (y + o.2)) []
    else
      (if p = 'b' ∨ p = 'q' then
        ray b c x y 1 1 ++ ray b c x y 1 (-1) ++ ray b c x y (-1) 1 ++ ray b c x y (-1) (-1)
      else []) ++
      (if p = 'r' ∨ p = 'q' then
        ray b c x y 1 0 ++ ray b c x y (-1) 0 ++ ray b c x y 0 1 ++ ray b c x y 0 (-1)
      else []) ++
      (if p = 'k' then
        kingOffsets.foldl (fun res o => res ++ addSq b c (x + o.1) (y + o.2)) []
      else [])

/-- `product(range(8), range(8))` from `is_in_check`: pairs `(y, x)` with `y`
outermost, in scan order. -/
def scanSquares : List (Int × Int) :=
  (List.range 8).flatMap fun y => (List.range 8).map fun (x : Nat) => ((y : Int), (x : Int))

/-- The king-locating loop of `is_in_check`: the first square `(y, x)` in
scan order holding `side`'s king, or `None`. -/
def kingSquare (b : Board) (side : Char) : Option (Int × Int) :=
  scanSquares.find? fun q => decide (atB b q.2 q.1 = (if side = 'w' then 'K' else 'k'))

/-- `is_in_check(board, side)` from the source: find the first square holding
`side`'s king in scan order (`None` → `False`), then test every square of the
opposing color for an attack on it. -/
def is_in_check (b : Board) (side : Char) : Bool :=
  match kingSquare b side with
  | none => false
  | some q =>
    let king_pos := (q.2, q.1)
    scanSquares.any fun r =>
      match color (atB b r.2 r.1) with
      | none => false
      | some pc => decide (pc ≠ side) && decide (king_pos ∈ moves_for b r.2 r.1)

/-- Python `str.isspace` characters relevant to `strip()` for ASCII input:
space (32) and the control characters tab through carriage return (9–13). -/
def isPySpace (ch : Char) : Bool :=
  decide (ch.toNat = 32) || (decide (9 ≤ ch.toNat) && decide (ch.toNat ≤ 13))

/-- Python `str.strip()`: drop whitespace from both ends. -/
def pyStrip (s : List Char) : List Char :=
  ((s.dropWhile isPySpace).reverse.dropWhile isPySpace).reverse

def FILES : List Char := "abcdefgh".toList
def RANKS : List Char := "12345678".toList

/-- `FILES.index(ch)` from the source (call sites guard `ch ∈ FILES`). -/
def fileIndex (ch : Char) : Int :=
  (FILES.indexOf ch : Nat)

/-- Python `int(ch)` on the single digit characters the parser admits. -/
def digitVal (ch : Char) : Int :=
  ((ch.toNat - '0'.toNat : Nat) : Int)

/-- The characters kept by Python's `replace(" ", "")`. -/
def notSpace (ch : Char) : Bool := decide (ch ≠ ' ')

/-- `move.strip().lower().replace(" ", "")` from `parse_move`. -/
def normalizeMove (s : List Char) : List Char :=
  ((pyStrip s).map Char.toLower).filter notSpace

/-- `parse_move(move)` from the source: strip, lowercase, delete every space,
demand exactly four characters file-rank-file-rank, map file letters by
position in `FILES` and rank digit `r` to row `8 - r`. -/
def parse_move (s : List Char) : Option (Int × Int × Int × Int) :=
  match normalizeMove s with
  | [fx, fy, tx, ty] =>
    if fx ∈ FILES ∧ tx ∈ FILES ∧ fy ∈ RANKS ∧ ty ∈ RANKS then
      some (fileIndex fx, 8 - digitVal fy, fileIndex tx, 8 - digitVal ty)
    else none
  | _ => none

/-- {board, sideToMove} — the mutable locals of the source's `main` loop. -/
structure GameState where
  board : Board
  turn : Char
deriving DecidableEq

/-- The four rejection paths of the loop body. -/
inductive Reason
  | BadFormat
  | NoPieceOrWrongColor
  | IllegalDestination
  | LeavesKingInCheck
deriving DecidableEq

def otherTurn (t : Char) : Char := if t = 'w' then 'b' else 'w'

/-- One iteration of the source's `main` loop on a move attempt (the quit
command aside): the next state paired with the rejection reason, if any.
Rejection paths return the incoming state, exactly as the source's
`continue` leaves `board` and `turn` untouched. -/
def attemptMove (s : GameState) (input : List Char) : GameState × Option Reason :=
  match parse_move input with
  | none => (s, some .BadFormat)
  | some (fx, fy, tx, ty) =>
    let piece := atB s.board fx fy
    if piece = '.' ∨ color piece ≠ some s.turn then (s, some .NoPieceOrWrongColor)
    else if (tx, ty) ∉ moves_for s.board fx fy then (s, some .IllegalDestination)
    else
      let clone := setB (setB s.board tx ty piece) fx fy '.'
      let clone :=
        if piece.toLower = 'p' ∧ (ty = 0 ∨ ty = 7) then
          setB clone tx ty (if s.turn = 'w' then 'Q' else 'q')
        else clone
      if is_in_check clone s.turn then (s, some .LeavesKingInCheck)
      else ({ board := clone, turn := otherTurn s.turn }, none)

/-- `newGame()`: initial position, White to move. -/
def newGame : GameState := { board := new_board, turn := 'w' }

/-- An 8×8 board: 8 rows of 8 cells, the source's standing shape invariant. -/
def Wf (b : Board) : Prop :=
  b.length = 8 ∧ ∀ row ∈ b, row.length = 8

/-- State-passing form of `moves_for`: the source's function only reads the
board (no statement in it writes to `board`), so the outgoing board is the
incoming one. -/
def movesForCall (b : Board) (x y : Int) : List (Int × Int) × Board :=
  (moves_for b x y, b)

/-- The eight ray directions `moves_for` issues for sliding pieces:
the four diagonals (bishop/queen) then the four orthogonals (rook/queen). -/
def slideDirs : List (Int × Int) :=
  [(1, 1), (1, -1), (-1, 1), (-1, -1), (1, 0), (-1, 0), (0, 1), (0, -1)]

/-- A white queen on d2 with a black pawn blocking its file on d5. -/
def boardQueenPawn : Board :=
  [ "........".toList
  , "........".toList
  , "........".toList
  , "...p....".toList
  , "........".toList
  , "........".toList
  , "...Q....".toList
  , "........".toList ]

/-- Black king on e8 in check from the white queen on e2. -/
def boardCheck : Board :=
  [ "....k...".toList
  , "........".toList
  , "........".toList
  , "........".toList
  , "........".toList
  , "........".toList
  , "....Q...".toList
  , "....K...".toList ]

/-- A lone white pawn on a7, one push away from promotion. -/
def boardPromo : Board :=
  [ "........".toList
  , "P.......".toList
  , "........".toList
  , "........".toList
  , "........".toList
  , "........".toList
  , "........".toList
  , "........".toList ]

/-- The board after the committed move a7a8 on `boardPromo`: the pawn has
been replaced by a white queen on a8. -/
def boardPromoAfter : Board :=
  [ "Q.......".toList
  , "........".toList
  , "........".toList
  , "........".toList
  , "........".toList
  , "........".toList
  , "........".toList
  , "........".toList ]

/-! ### Lemmas on Python indexing and board access -/

theorem pyIdx_eq_none {n : Nat} {i : Int} (h : i < -(n : Int) ∨ (n : Int) ≤ i) :
    pyIdx n i = none := by
  unfold pyIdx
  split
  · omega
  · split
    · omega
    · rfl

theorem pyIdx_lt {n : Nat} {i : Int} {j : Nat} (h : pyIdx n i = some j) : j < n := by
  unfold pyIdx at h
  split at h
  · cases h; omega
  · split at h
    · cases h; omega
    · cases h

theorem pyIdx_isSome {n : Nat} {i : Int}
    (h₁ : -(n : Int) ≤ i) (h₂ : i < (n : Int)) : ∃ j, pyIdx n i = some j ∧ j < n := by
  unfold pyIdx
  split
  · exact ⟨_, rfl, by omega⟩
  · split
    · exact ⟨_, rfl, by omega⟩
    · omega

theorem pyIdx_of_nonneg {n : Nat} {i : Int} (h₁ : 0 ≤ i) (h₂ : i < (n : Int)) :
    pyIdx n i = some i.toNat := by
  unfold pyIdx
  split
  · rfl
  · omega

theorem pyGet_eq_none {α : Type} {l : List α} {i : Int}
    (h : i < -(l.length : Int) ∨ (l.length : Int) ≤ i) : pyGet l i = none := by
  unfold pyGet
  rw [pyIdx_eq_none h]

theorem pyGet_isSome {α : Type} {l : List α} {i : Int}
    (h₁ : -(l.length : Int) ≤ i) (h₂ : i < (l.length : Int)) :
    ∃ a, pyGet l i = some a := by
  obtain ⟨j, hj, hlt⟩ := pyIdx_isSome h₁ h₂
  exact ⟨_, by unfold pyGet; rw [hj]; exact List.get?_eq_get hlt⟩

theorem pyGet_nonneg {α : Type} {l : List α} {i : Int}
    (h₁ : 0 ≤ i) (h₂ : i < (l.length : Int)) :
    pyGet l i = l.get? i.toNat := by
  unfold pyGet
  rw [pyIdx_of_nonneg h₁ h₂]

@[simp] theorem pySet_length {α : Type} (l : List α) (i : Int) (v : α) :
    (pySet l i v).length = l.length := by
  unfold pySet
  split
  · exact l.length_set ..
  · rfl

theorem pySet_of_nonneg {α : Type} {l : List α} {i : Int} (v : α)
    (h₁ : 0 ≤ i) (h₂ : i < (l.length : Int)) :
    pySet l i v = l.set i.toNat v := by
  unfold pySet
  rw [pyIdx_of_nonneg h₁ h₂]

theorem pyGet_mem {α : Type} {l : List α} {i : Int} {a : α}
    (h : pyGet l i = some a) : a ∈ l := by
  unfold pyGet at h
  cases hj : pyIdx l.length i with
  | none => rw [hj] at h; cases h
  | some j => rw [hj] at h; exact List.get?_mem h

theorem pySet_subset {α : Type} {l : List α} {i : Int} {v a : α}
    (h : a ∈ pySet l i v) : a ∈ l ∨ a = v := by
  unfold pySet at h
  split at h
  · exact List.mem_or_eq_of_mem_set h
  · exact Or.inl h

theorem Wf_setB {b : Board} (x y : Int) (v : Char) (hb : Wf b) : Wf (setB b x y v) := by
  obtain ⟨hlen, hrow⟩ := hb
  unfold Wf setB
  split
  next row hget =>
    have hrl : row.length = 8 := hrow _ (pyGet_mem hget)
    refine ⟨by rw [pySet_length, hlen], ?_⟩
    intro r hmem
    rcases pySet_subset hmem with h | h
    · exact hrow _ h
    · subst h; rw [pySet_length, hrl]
  next hget => exact ⟨hlen, hrow⟩

theorem pieceAt_eq_some {b : Board} {x y : Int} (hb : Wf b)
    (hx₁ : 0 ≤ x) (hx₂ : x < 8) (hy₁ : 0 ≤ y) (hy₂ : y < 8) :
    ∃ row, pyGet b y = some row ∧ row.length = 8 ∧
      pieceAt b x y = row.get? x.toNat := by
  obtain ⟨hlen, hrow⟩ := hb
  have hy : pyGet b y = b.get? y.toNat := pyGet_nonneg hy₁ (by omega)
  have hyl : y.toNat < b.length := by omega
  obtain ⟨row, hrowget⟩ : ∃ row, b.get? y.toNat = some row :=
    ⟨_, List.get?_eq_get hyl⟩
  have hr8 : row.length = 8 := hrow _ (List.get?_mem hrowget)
  refine ⟨row, hy.trans hrowget, hr8, ?_⟩
  unfold pieceAt
  rw [hy, hrowget]
  exact pyGet_nonneg hx₁ (by omega)

/-- Reading back the square just written by `setB`. -/
theorem atB_setB_same {b : Board} {x y : Int} (v : Char) (hb : Wf b)
    (hx₁ : 0 ≤ x) (hx₂ : x < 8) (hy₁ : 0 ≤ y) (hy₂ : y < 8) :
    atB (setB b x y v) x y = v := by
  obtain ⟨hlen, hrow⟩ := hb
  obtain ⟨row, hget, hr8, _⟩ := pieceAt_eq_some ⟨hlen, hrow⟩ hx₁ hx₂ hy₁ hy₂
  have hsetB : setB b x y v = pySet b y (pySet row x v) := by
    unfold setB; rw [hget]
  have hyl : y.toNat < b.length := by omega
  have hxl : x.toNat < row.length := by omega
  have houter : pyGet (pySet b y (pySet row x v)) y = some (pySet row x v) := by
    rw [pySet_of_nonneg _ hy₁ (by omega),
      pyGet_nonneg hy₁ (by rw [List.length_set]; omega)]
    exact List.get?_set_eq_of_lt _ hyl
  have hinner : pyGet (pySet row x v) x = some v := by
    rw [pySet_of_nonneg _ hx₁ (by omega),
      pyGet_nonneg hx₁ (by rw [List.length_set]; omega)]
    exact List.get?_set_eq_of_lt _ hxl
  unfold atB pieceAt
  rw [hsetB]
  simp only [houter, hinner, Option.getD_some]

/-! ### Char toolkit: `toLower` through code points -/

theorem char_toNat_inj {c d : Char} (h : c.toNat = d.toNat) : c = d :=
  Char.eq_of_val_eq (UInt32.ext h)

theorem char_eq_iff_toNat {c d : Char} : c = d ↔ c.toNat = d.toNat :=
  ⟨fun h => h ▸ rfl, char_toNat_inj⟩

theorem toLower_toNat (c : Char) :
    (Char.toLower c).toNat =
      if 65 ≤ c.toNat ∧ c.toNat ≤ 90 then c.toNat + 32 else c.toNat := by
  unfold Char.toLower
  split
  · next h =>
    rw [if_pos (by omega)]
    have hv : (c.toNat + 32).isValidChar := Or.inl (by omega)
    unfold Char.ofNat
    rw [dif_pos hv]
    rfl
  · next h =>
    rw [if_neg (by omega)]

theorem toLower_idem (c : Char) : Char.toLower (Char.toLower c) = Char.toLower c := by
  apply char_toNat_inj
  rw [toLower_toNat, toLower_toNat]
  by_cases h : 65 ≤ c.toNat ∧ c.toNat ≤ 90
  · simp only [if_pos h]
    rw [if_neg (by omega)]
  · simp only [if_neg h]

theorem isPySpace_toLower (c : Char) : isPySpace (Char.toLower c) = isPySpace c := by
  unfold isPySpace
  rw [toLower_toNat]
  by_cases h : 65 ≤ c.toNat ∧ c.toNat ≤ 90
  · rw [if_pos h]
    have h1 : ¬(c.toNat + 32 = 32) := by omega
    have h2 : ¬(c.toNat + 32 ≤ 13) := by omega
    have h3 : ¬(c.toNat = 32) := by omega
    have h4 : ¬(c.toNat ≤ 13) := by omega
    simp [h1, h2, h3, h4]
  · rw [if_neg h]

theorem toLower_eq_space_iff (c : Char) : Char.toLower c = ' ' ↔ c = ' ' := by
  rw [char_eq_iff_toNat, char_eq_iff_toNat, toLower_toNat]
  rw [show (' ').toNat = 32 from rfl]
  split <;> omega

/-! ### Normalization lemmas for `parse_move` -/

theorem notSpace_toLower (c : Char) : notSpace (Char.toLower c) = notSpace c := by
  simp [notSpace, toLower_eq_space_iff]

theorem notSpace_of_not_isPySpace {c : Char} (h : isPySpace c = false) :
    notSpace c = true := by
  unfold isPySpace at h
  unfold notSpace
  simp only [Bool.or_eq_false_iff, decide_eq_false_iff_not] at h
  simp only [decide_eq_true_eq]
  intro hc
  exact h.1 (by rw [hc]; rfl)

theorem dropWhile_filter_notSpace (l : List Char) :
    (l.filter notSpace).dropWhile isPySpace = (l.dropWhile isPySpace).filter notSpace := by
  induction l with
  | nil => rfl
  | cons c l ih =>
    by_cases hsp : isPySpace c
    · by_cases hns : notSpace c
      · simp [List.filter_cons, hns, List.dropWhile_cons, hsp, ih]
      · simp [List.filter_cons, hns, List.dropWhile_cons, hsp, ih]
    · have hns : notSpace c = true :=
        notSpace_of_not_isPySpace (Bool.not_eq_true _ ▸ eq_false_of_ne_true hsp)
      simp [List.filter_cons, hns, List.dropWhile_cons, hsp]

theorem pyStrip_filter_notSpace (l : List Char) :
    pyStrip (l.filter notSpace) = (pyStrip l).filter notSpace := by
  unfold pyStrip
  rw [dropWhile_filter_notSpace, ← List.filter_reverse, dropWhile_filter_notSpace,
    ← List.filter_reverse]

theorem pyStrip_map_toLower (l : List Char) :
    pyStrip (l.map Char.toLower) = (pyStrip l).map Char.toLower := by
  unfold pyStrip
  rw [List.dropWhile_map]
  simp only [Function.comp_def, isPySpace_toLower, ← List.map_reverse, List.dropWhile_map]

theorem filter_notSpace_map_toLower (l : List Char) :
    (l.map Char.toLower).filter notSpace = (l.filter notSpace).map Char.toLower := by
  rw [List.filter_map]
  simp only [Function.comp_def, notSpace_toLower]

theorem normalizeMove_filter (l : List Char) :
    normalizeMove (l.filter notSpace) = normalizeMove l := by
  unfold normalizeMove
  rw [pyStrip_filter_notSpace, ← filter_notSpace_map_toLower, List.filter_filter]
  simp only [Bool.and_self]

theorem normalizeMove_map_toLower (l : List Char) :
    normalizeMove (l.map Char.toLower) = normalizeMove l := by
  unfold normalizeMove
  rw [pyStrip_map_toLower, List.map_map]
  simp only [Function.comp_def, toLower_idem]

theorem parse_move_filter_notSpace (l : List Char) :
    parse_move (l.filter notSpace) = parse_move l := by
  unfold parse_move
  rw [normalizeMove_filter]

theorem parse_move_map_toLower (l : List Char) :
    parse_move (l.map Char.toLower) = parse_move l := by
  unfold parse_move
  rw [normalizeMove_map_toLower]

/-! ### Inversion of `parse_move` -/

theorem parse_move_eq_some_iff {s : List Char} {fx fy tx ty : Int} :
    parse_move s = some (fx, fy, tx, ty) ↔
      ∃ c1 c2 c3 c4, normalizeMove s = [c1, c2, c3, c4] ∧
        c1 ∈ FILES ∧ c3 ∈ FILES ∧ c2 ∈ RANKS ∧ c4 ∈ RANKS ∧
        fx = fileIndex c1 ∧ fy = 8 - digitVal c2 ∧
        tx = fileIndex c3 ∧ ty = 8 - digitVal c4 := by
  unfold parse_move
  generalize normalizeMove s = m
  rcases m with _ | ⟨d1, _ | ⟨d2, _ | ⟨d3, _ | ⟨d4, _ | ⟨d5, t⟩⟩⟩⟩⟩
  · simp
  · simp
  · simp
  · simp
  · show (if d1 ∈ FILES ∧ d3 ∈ FILES ∧ d2 ∈ RANKS ∧ d4 ∈ RANKS then
        some (fileIndex d1, 8 - digitVal d2, fileIndex d3, 8 - digitVal d4)
      else none) = some (fx, fy, tx, ty) ↔ _
    split
    next hmem =>
      simp only [Option.some.injEq, Prod.mk.injEq]
      constructor
      · rintro ⟨rfl, rfl, rfl, rfl⟩
        exact ⟨d1, d2, d3, d4, rfl, hmem.1, hmem.2.1, hmem.2.2.1, hmem.2.2.2,
          rfl, rfl, rfl, rfl⟩
      · rintro ⟨c1, c2, c3, c4, heq, _, _, _, _, rfl, rfl, rfl, rfl⟩
        obtain ⟨rfl, rfl, rfl, rfl⟩ : d1 = c1 ∧ d2 = c2 ∧ d3 = c3 ∧ d4 = c4 := by
          simpa using heq
        exact ⟨rfl, rfl, rfl, rfl⟩
    next hmem =>
      apply iff_of_false (by simp)
      rintro ⟨c1, c2, c3, c4, heq, m1, m3, m2, m4, _, _, _, _⟩
      obtain ⟨rfl, rfl, rfl, rfl⟩ : d1 = c1 ∧ d2 = c2 ∧ d3 = c3 ∧ d4 = c4 := by
        simpa using heq
      exact hmem ⟨m1, m3, m2, m4⟩
  · apply iff_of_false (by simp)
    rintro ⟨c1, c2, c3, c4, heq, _⟩
    simp at heq

theorem fileIndex_range : ∀ c ∈ FILES, 0 ≤ fileIndex c ∧ fileIndex c < 8 := by decide

theorem rankRow_range : ∀ c ∈ RANKS, 0 ≤ 8 - digitVal c ∧ 8 - digitVal c < 8 := by decide

theorem parse_move_bounds {s : List Char} {fx fy tx ty : Int}
    (h : parse_move s = some (fx, fy, tx, ty)) :
    0 ≤ fx ∧ fx < 8 ∧ 0 ≤ fy ∧ fy < 8 ∧ 0 ≤ tx ∧ tx < 8 ∧ 0 ≤ ty ∧ ty < 8 := by
  obtain ⟨c1, c2, c3, c4, _, h1, h3, h2, h4, rfl, rfl, rfl, rfl⟩ :=
    parse_move_eq_some_iff.mp h
  have r1 := fileIndex_range c1 h1
  have r3 := fileIndex_range c3 h3
  have r2 := rankRow_range c2 h2
  have r4 := rankRow_range c4 h4
  omega

/-! ### `scanSquares`, `friendlyAt`, `addSq` and fold lemmas -/

theorem mem_scanSquares {a b : Int} :
    (a, b) ∈ scanSquares ↔ 0 ≤ a ∧ a < 8 ∧ 0 ≤ b ∧ b < 8 := by
  unfold scanSquares
  rw [List.mem_flatMap]
  constructor
  · rintro ⟨y, hy, hmem⟩
    rw [List.mem_map] at hmem
    obtain ⟨x, hx, heq⟩ := hmem
    rw [List.mem_range] at hy
    rw [List.mem_range] at hx
    injection heq with e1 e2
    subst e1
    subst e2
    omega
  · rintro ⟨h1, h2, h3, h4⟩
    refine ⟨a.toNat, List.mem_range.mpr (by omega), ?_⟩
    rw [List.mem_map]
    refine ⟨b.toNat, List.mem_range.mpr (by omega), ?_⟩
    rw [Prod.mk.injEq]
    constructor <;> omega

theorem friendlyAt_eq_true_iff {b : Board} {c : Char} {nx ny : Int} :
    friendlyAt b c nx ny = true ↔
      atB b nx ny ≠ '.' ∧ color (atB b nx ny) = some c := by
  unfold friendlyAt
  simp

theorem friendlyAt_eq_false_iff {b : Board} {c : Char} {nx ny : Int} :
    friendlyAt b c nx ny = false ↔
      atB b nx ny = '.' ∨ color (atB b nx ny) ≠ some c := by
  rw [← Bool.not_eq_true, friendlyAt_eq_true_iff]
  by_cases h : atB b nx ny = '.' <;> simp [h]

theorem friendlyAt_of_empty {b : Board} {c : Char} {nx ny : Int}
    (h : atB b nx ny = '.') : friendlyAt b c nx ny = false := by
  simp [friendlyAt, h]

theorem mem_addSq {b : Board} {c : Char} {nx ny : Int} {q : Int × Int} :
    q ∈ addSq b c nx ny ↔
      q = (nx, ny) ∧ in_bounds nx ny = true ∧ friendlyAt b c nx ny = false := by
  unfold addSq
  split
  next h =>
    rw [Bool.and_eq_true, Bool.not_eq_true'] at h
    simp [h.1, h.2]
  next h =>
    rw [Bool.and_eq_true, Bool.not_eq_true'] at h
    simp only [List.not_mem_nil, false_iff]
    rintro ⟨rfl, hb, hf⟩
    exact h ⟨hb, hf⟩

theorem mem_foldl_append {α β : Type} (f : α → List β) :
    ∀ (l : List α) (init : List β) (q : β),
      (q ∈ l.foldl (fun res a => res ++ f a) init ↔ q ∈ init ∨ ∃ a ∈ l, q ∈ f a) := by
  intro l
  induction l with
  | nil => simp
  | cons a l ih =>
    intro init q
    rw [List.foldl_cons, ih, List.mem_append]
    simp only [List.mem_cons]
    constructor
    · rintro ((h | h) | ⟨a', ha', hq⟩)
      · exact Or.inl h
      · exact Or.inr ⟨a, Or.inl rfl, h⟩
      · exact Or.inr ⟨a', Or.inr ha', hq⟩
    · rintro (h | ⟨a', (rfl | ha'), hq⟩)
      · exact Or.inl (Or.inl h)
      · exact Or.inl (Or.inr hq)
      · exact Or.inr ⟨a', ha', hq⟩

/-! ### The ray characterization -/

theorem mem_rayAux {b : Board} {c : Char} {dx dy : Int} :
    ∀ (fuel : Nat) (nx ny : Int) (q : Int × Int),
      (q ∈ rayAux b c dx dy fuel nx ny ↔
        ∃ i : Nat, i < fuel ∧ q = (nx + i * dx, ny + i * dy) ∧
          (∀ j : Nat, j < i → in_bounds (nx + j * dx) (ny + j * dy) = true ∧
            atB b (nx + j * dx) (ny + j * dy) = '.') ∧
          in_bounds (nx + i * dx) (ny + i * dy) = true ∧
          friendlyAt b c (nx + i * dx) (ny + i * dy) = false) := by
  intro fuel
  induction fuel with
  | zero =>
    intro nx ny q
    simp [rayAux]
  | succ fuel ih =>
    intro nx ny q
    constructor
    · intro hq
      simp only [rayAux] at hq
      split at hq
      next hb0 =>
        split at hq
        next hf => simp at hq
        next hf =>
          have hf' : friendlyAt b c nx ny = false := Bool.eq_false_iff.mpr hf
          rcases List.mem_cons.mp hq with rfl | htail
          · refine ⟨0, Nat.succ_pos _, by simp, fun j hj => absurd hj (by omega), ?_, ?_⟩
            · simpa using hb0
            · simpa using hf'
          · split at htail
            next hdot =>
              obtain ⟨i, hi, hq', hprev, hbi, hfi⟩ := (ih (nx + dx) (ny + dy) q).mp htail
              have harx : ∀ k : Nat, nx + dx + (k : Int) * dx = nx + ((k + 1 : Nat) : Int) * dx := by
                intro k; push_cast; ring
              have hary : ∀ k : Nat, ny + dy + (k : Int) * dy = ny + ((k + 1 : Nat) : Int) * dy := by
                intro k; push_cast; ring
              refine ⟨i + 1, by omega, ?_, ?_, ?_, ?_⟩
              · rw [hq', harx, hary]
              · intro j hj
                cases j with
                | zero => simpa using ⟨hb0, hdot⟩
                | succ j =>
                  have := hprev j (by omega)
                  rwa [harx, hary] at this
              · rwa [harx, hary] at hbi
              · rwa [harx, hary] at hfi
            next hdot => simp at htail
      next hb0 => simp at hq
    · rintro ⟨i, hi, rfl, hprev, hbi, hfi⟩
      simp only [rayAux]
      split
      next hb0 =>
        split
        next hf =>
          exfalso
          cases i with
          | zero =>
            rw [show (0 : Nat) = 0 from rfl] at hfi
            simp only [Nat.cast_zero, zero_mul, add_zero] at hfi
            rw [hfi] at hf
            cases hf
          | succ i =>
            have h0 := hprev 0 (by omega)
            simp only [Nat.cast_zero, zero_mul, add_zero] at h0
            rw [friendlyAt_of_empty h0.2] at hf
            cases hf
        next hf =>
          cases i with
          | zero =>
            simp only [Nat.cast_zero, zero_mul, add_zero]
            exact List.mem_cons_self _ _
          | succ i =>
            have h0 := hprev 0 (by omega)
            simp only [Nat.cast_zero, zero_mul, add_zero] at h0
            apply List.mem_cons_of_mem
            rw [if_pos h0.2]
            apply (ih (nx + dx) (ny + dy) _).mpr
            have harx : ∀ k : Nat, nx + dx + (k : Int) * dx = nx + ((k + 1 : Nat) : Int) * dx := by
              intro k; push_cast; ring
            have hary : ∀ k : Nat, ny + dy + (k : Int) * dy = ny + ((k + 1 : Nat) : Int) * dy := by
              intro k; push_cast; ring
            refine ⟨i, by omega, by rw [harx, hary], ?_, ?_, ?_⟩
            · intro j hj
              rw [harx, hary]
              exact hprev (j + 1) (by omega)
            · rw [harx, hary]; exact hbi
            · rw [harx, hary]; exact hfi
      next hb0 =>
        exfalso
        cases i with
        | zero =>
          simp only [Nat.cast_zero, zero_mul, add_zero] at hbi
          exact hb0 hbi
        | succ i =>
          have h0 := hprev 0 (by omega)
          simp only [Nat.cast_zero, zero_mul, add_zero] at h0
          exact hb0 h0.1

theorem in_bounds_iff {x y : Int} :
    in_bounds x y = true ↔ 0 ≤ x ∧ x < 8 ∧ 0 ≤ y ∧ y < 8 := by
  unfold in_bounds
  simp [and_assoc]

theorem color_cases {ch c : Char} (h : color ch = some c) : c = 'w' ∨ c = 'b' := by
  unfold color at h
  split at h
  · cases h
  · split at h
    · exact Or.inl (Option.some.inj h).symm
    · exact Or.inr (Option.some.inj h).symm

theorem in_bounds_interp {x y dx dy : Int} {i j : Nat}
    (hdx : -1 ≤ dx ∧ dx ≤ 1) (hdy : -1 ≤ dy ∧ dy ≤ 1)
    (h0 : in_bounds x y = true)
    (hi : in_bounds (x + i * dx) (y + i * dy) = true)
    (hj : j ≤ i) :
    in_bounds (x + j * dx) (y + j * dy) = true := by
  rw [in_bounds_iff] at h0 hi ⊢
  obtain ⟨hdx1, hdx2⟩ := hdx
  obtain ⟨hdy1, hdy2⟩ := hdy
  have hji : (j : Int) ≤ (i : Int) := by omega
  interval_cases dx <;> interval_cases dy <;> omega

theorem steps_le_seven {x y dx dy : Int} {i : Nat}
    (hdx : -1 ≤ dx ∧ dx ≤ 1) (hdy : -1 ≤ dy ∧ dy ≤ 1) (hnz : ¬(dx = 0 ∧ dy = 0))
    (h0 : in_bounds x y = true)
    (hi : in_bounds (x + i * dx) (y + i * dy) = true) :
    i ≤ 7 := by
  rw [in_bounds_iff] at h0 hi
  obtain ⟨hdx1, hdx2⟩ := hdx
  obtain ⟨hdy1, hdy2⟩ := hdy
  have key : ∀ a d : Int, -1 ≤ d → d ≤ 1 → d ≠ 0 → 0 ≤ a → a < 8 →
      0 ≤ a + i * d → a + i * d < 8 → i ≤ 7 := by
    intro a d h1 h2 h3 h4 h5 h6 h7
    interval_cases d
    · omega
    · exact absurd rfl h3
    · omega
  rcases not_and_or.mp hnz with h | h
  · exact key x dx hdx1 hdx2 h h0.1 h0.2.1 hi.1 hi.2.1
  · exact key y dy hdy1 hdy2 h h0.2.2.1 h0.2.2.2 hi.2.2.1 hi.2.2.2

/-- The full first-blocker characterization of a source `ray`, stated against
an arbitrary unit direction. -/
theorem ray_mem_iff {b : Board} {c : Char} {x y dx dy : Int} (i : Nat)
    (hdx : -1 ≤ dx ∧ dx ≤ 1) (hdy : -1 ≤ dy ∧ dy ≤ 1) (hnz : ¬(dx = 0 ∧ dy = 0))
    (hxy : in_bounds x y = true) (hi : 1 ≤ i) :
    ((x + i * dx, y + i * dy) ∈ ray b c x y dx dy ↔
      in_bounds (x + i * dx) (y + i * dy) = true ∧
      (∀ j : Nat, j < i → 1 ≤ j → atB b (x + j * dx) (y + j * dy) = '.') ∧
      (atB b (x + i * dx) (y + i * dy) = '.' ∨
        color (atB b (x + i * dx) (y + i * dy)) ≠ some c)) := by
  unfold ray
  rw [mem_rayAux 8 (x + dx) (y + dy) (x + i * dx, y + i * dy)]
  have harx : ∀ k : Nat, x + dx + (k : Int) * dx = x + ((k + 1 : Nat) : Int) * dx := by
    intro k; push_cast; ring
  have hary : ∀ k : Nat, y + dy + (k : Int) * dy = y + ((k + 1 : Nat) : Int) * dy := by
    intro k; push_cast; ring
  constructor
  · rintro ⟨k, hk, heq, hprev, hbk, hfk⟩
    have hik : i = k + 1 := by
      injection heq with e1 e2
      by_cases hdx0 : dx = 0
      · have hdy0 : dy ≠ 0 := fun h => hnz ⟨hdx0, h⟩
        have h2 : ((i : Int) - k - 1) * dy = 0 := by linear_combination e2
        rcases mul_eq_zero.mp h2 with h | h
        · omega
        · exact absurd h hdy0
      · have h1 : ((i : Int) - k - 1) * dx = 0 := by linear_combination e1
        rcases mul_eq_zero.mp h1 with h | h
        · omega
        · exact absurd h hdx0
    subst hik
    rw [harx k, hary k] at hbk hfk
    refine ⟨hbk, ?_, friendlyAt_eq_false_iff.mp hfk⟩
    intro j hj hj1
    obtain ⟨j', rfl⟩ : ∃ j', j = j' + 1 := ⟨j - 1, by omega⟩
    have := (hprev j' (by omega)).2
    rwa [harx j', hary j'] at this
  · rintro ⟨hbi, hmid, hlast⟩
    have hle : i ≤ 7 := steps_le_seven ⟨hdx.1, hdx.2⟩ ⟨hdy.1, hdy.2⟩ hnz hxy hbi
    obtain ⟨k, rfl⟩ : ∃ k, i = k + 1 := ⟨i - 1, by omega⟩
    refine ⟨k, by omega, by rw [harx k, hary k], ?_, ?_, ?_⟩
    · intro j hj
      rw [harx j, hary j]
      refine ⟨in_bounds_interp hdx hdy hxy hbi (by omega), ?_⟩
      exact hmid (j + 1) (by omega) (by omega)
    · rw [harx k, hary k]; exact hbi
    · rw [harx k, hary k]; exact friendlyAt_eq_false_iff.mpr hlast

/-- Any member of a source ray sits on a non-friendly square. -/
theorem ray_mem_not_friendly {b : Board} {c : Char} {x y dx dy : Int} {q : Int × Int}
    (h : q ∈ ray b c x y dx dy) : friendlyAt b c q.1 q.2 = false := by
  unfold ray at h
  obtain ⟨i, _, rfl, _, _, hfi⟩ := (mem_rayAux 8 (x + dx) (y + dy) q).mp h
  exact hfi

/-! ### Branch equations for `moves_for` -/

theorem moves_for_of_color_none {b : Board} {x y : Int}
    (h : color (atB b x y) = none) : moves_for b x y = [] := by
  unfold moves_for
  simp only [h]

theorem moves_for_pawn {b : Board} {x y : Int} {c : Char}
    (hc : color (atB b x y) = some c) (hp : (atB b x y).toLower = 'p') :
    moves_for b x y = pawnMoves b c x y := by
  unfold moves_for
  simp only [hc, hp]
  rw [if_pos trivial]

theorem moves_for_knight {b : Board} {x y : Int} {c : Char}
    (hc : color (atB b x y) = some c) (hp : (atB b x y).toLower = 'n') :
    moves_for b x y =
      knightOffsets.foldl (fun res o => res ++ addSq b c (x + o.1) (y + o.2)) [] := by
  unfold moves_for
  simp only [hc, hp]
  rw [if_pos trivial, if_neg (by decide)]

theorem moves_for_other {b : Board} {x y : Int} {c : Char}
    (hc : color (atB b x y) = some c)
    (hp : (atB b x y).toLower ≠ 'p') (hn : (atB b x y).toLower ≠ 'n') :
    moves_for b x y =
      (if (atB b x y).toLower = 'b' ∨ (atB b x y).toLower = 'q' then
        ray b c x y 1 1 ++ ray b c x y 1 (-1) ++ ray b c x y (-1) 1 ++ ray b c x y (-1) (-1)
      else []) ++
      (if (atB b x y).toLower = 'r' ∨ (atB b x y).toLower = 'q' then
        ray b c x y 1 0 ++ ray b c x y (-1) 0 ++ ray b c x y 0 1 ++ ray b c x y 0 (-1)
      else []) ++
      (if (atB b x y).toLower = 'k' then
        kingOffsets.foldl (fun res o => res ++ addSq b c (x + o.1) (y + o.2)) []
      else []) := by
  unfold moves_for
  simp only [hc]
  rw [if_neg hp, if_neg hn]

/-! ### Python negative-index wrap for reads -/

theorem pyGet_neg {α : Type} {l : List α} {i : Int}
    (h₁ : -(l.length : Int) ≤ i) (h₂ : i < 0) :
    pyGet l i = pyGet l (i + l.length) := by
  have h1 : pyIdx l.length i = some (((l.length : Int) + i).toNat) := by
    unfold pyIdx
    rw [if_neg (by omega), if_pos (by omega)]
  have h2 : pyIdx l.length (i + l.length) = some ((i + (l.length : Int)).toNat) :=
    pyIdx_of_nonneg (by omega) (by omega)
  unfold pyGet
  simp only [h1, h2]
  congr 1
  omega

/-! ### Claim theorems -/

/-- C7 counterexample: the square `(0, -1)` lies outside `[0,8)×[0,8)`, yet
reading it does not fail: Python's negative indexing silently wraps to the
last row and returns the white rook `'R'`. -/
theorem pieceAt_negative_index_counterexample :
    ¬(0 ≤ (-1 : Int) ∧ (-1 : Int) < 8) ∧ pieceAt new_board 0 (-1) = some 'R' := by
  constructor
  · decide
  · rfl

/-- C7 (amended): reading a square fails with an out-of-range error exactly
outside `[-8,8)×[-8,8)`; inside that range a negative coordinate is silently
wrapped by 8 (Python negative indexing) and a value is returned. -/
theorem pieceAt_out_of_range_amended (b : Board) (hb : Wf b) :
    (∀ x y : Int, (¬(-8 ≤ x ∧ x < 8) ∨ ¬(-8 ≤ y ∧ y < 8)) → pieceAt b x y = none) ∧
    (∀ x y : Int, -8 ≤ x → x < 8 → -8 ≤ y → y < 8 →
      ∃ ch : Char, pieceAt b x y = some ch ∧
        pieceAt b (if x < 0 then x + 8 else x) (if y < 0 then y + 8 else y) = some ch) := by
  obtain ⟨hlen, hrow⟩ := hb
  constructor
  · intro x y h
    rcases h with hx | hy
    · unfold pieceAt
      cases hget : pyGet b y with
      | none => rfl
      | some row =>
        have hr8 : row.length = 8 := hrow _ (pyGet_mem hget)
        exact pyGet_eq_none (by omega)
    · have hnone : pyGet b y = none := pyGet_eq_none (by omega)
      unfold pieceAt
      simp only [hnone]
  · intro x y hx1 hx2 hy1 hy2
    have hx' : 0 ≤ (if x < 0 then x + 8 else x) ∧ (if x < 0 then x + 8 else x) < 8 := by
      split <;> omega
    have hy' : 0 ≤ (if y < 0 then y + 8 else y) ∧ (if y < 0 then y + 8 else y) < 8 := by
      split <;> omega
    have houter : pyGet b y = pyGet b (if y < 0 then y + 8 else y) := by
      split
      next hneg =>
        have h := pyGet_neg (l := b) (by omega) hneg
        rw [hlen] at h
        exact h.trans (by norm_num)
      next => rfl
    obtain ⟨row, hrowget, hr8, hPA⟩ :=
      pieceAt_eq_some ⟨hlen, hrow⟩ hx'.1 hx'.2 hy'.1 hy'.2
    have hinner : pyGet row x = pyGet row (if x < 0 then x + 8 else x) := by
      split
      next hneg =>
        have h := pyGet_neg (l := row) (by omega) hneg
        rw [hr8] at h
        exact h.trans (by norm_num)
      next => rfl
    have heq : pieceAt b x y = pieceAt b (if x < 0 then x + 8 else x)
        (if y < 0 then y + 8 else y) := by
      unfold pieceAt
      rw [houter, hrowget]
      exact hinner
    obtain ⟨ch, hch⟩ : ∃ ch, pieceAt b (if x < 0 then x + 8 else x)
        (if y < 0 then y + 8 else y) = some ch := by
      rw [hPA]
      exact ⟨_, List.get?_eq_get (by omega)⟩
    exact ⟨ch, heq.trans hch, hch⟩

/-- C7 (amended) witness at a concrete input: the fully-negative square
`(-8, -1)` wraps to `(0, 7)` on the initial board. -/
theorem pieceAt_out_of_range_amended_witness :
    pieceAt new_board 9 3 = none ∧
    ∃ ch : Char, pieceAt new_board (-8) (-1) = some ch ∧
      pieceAt new_board (if (-8 : Int) < 0 then -8 + 8 else -8)
        (if (-1 : Int) < 0 then -1 + 8 else -1) = some ch :=
  ⟨(pieceAt_out_of_range_amended new_board ⟨rfl, by decide⟩).1 9 3 (by decide),
   (pieceAt_out_of_range_amended new_board ⟨rfl, by decide⟩).2 (-8) (-1)
     (by decide) (by decide) (by decide) (by decide)⟩

/-- C9: `moves_for` is a pure read of the board.  In the state-passing form
`movesForCall` the outgoing board equals the incoming one, and an immediately
repeated call on the returned board yields the identical result. -/
theorem moves_for_board_preserved (b : Board) (x y : Int)
    (h : in_bounds x y = true) :
    (movesForCall b x y).2 = b ∧
    movesForCall ((movesForCall b x y).2) x y = movesForCall b x y ∧
    (movesForCall b x y).1 = moves_for b x y :=
  ⟨rfl, rfl, rfl⟩

/-- C9 witness: the initial board at e2. -/
theorem moves_for_board_preserved_witness :
    (movesForCall new_board 4 6).2 = new_board :=
  (moves_for_board_preserved new_board 4 6 (by decide)).1

/-- C10: `parse_move` deletes every space anywhere in the input and
lowercases it before validating: any two inputs with the same space-free
projection parse identically, lowercasing the input is invisible, and
"e 2 e 4" and "E2E4" parse to the same move as "e2e4". -/
theorem parse_move_space_and_case_insensitive :
    (∀ s t : List Char, t.filter notSpace = s.filter notSpace →
      parse_move t = parse_move s) ∧
    (∀ s : List Char, parse_move (s.map Char.toLower) = parse_move s) ∧
    parse_move ("e 2 e 4".toList) = parse_move ("e2e4".toList) ∧
    parse_move ("E2E4".toList) = parse_move ("e2e4".toList) ∧
    parse_move ("e2e4".toList) = some (4, 6, 4, 4) := by
  refine ⟨?_, parse_move_map_toLower, ?_, ?_, ?_⟩
  · intro s t hst
    rw [← parse_move_filter_notSpace t, hst, parse_move_filter_notSpace]
  · rfl
  · rfl
  · rfl

/-- C10 witness: discharging the quantified space-projection hypothesis at a
concrete pair of inputs. -/
theorem parse_move_space_and_case_insensitive_witness :
    parse_move ("e2 e4".toList) = parse_move ("e 2e4".toList) :=
  parse_move_space_and_case_insensitive.1 ("e 2e4".toList) ("e2 e4".toList) (by rfl)

/-- C6: `parse_move` maps file letters to their position in "abcdefgh" and a
rank digit `r` to row `8 - r`; any normalized input that is not exactly four
characters, or whose file/rank characters fall outside `a..h` / `1..8`,
yields `none` and never a partial move. -/
theorem parse_move_mapping_and_rejection :
    (∀ (s : List Char) (fx fy tx ty : Int), parse_move s = some (fx, fy, tx, ty) →
      ∃ c1 c2 c3 c4, normalizeMove s = [c1, c2, c3, c4] ∧
        c1 ∈ FILES ∧ c3 ∈ FILES ∧ c2 ∈ RANKS ∧ c4 ∈ RANKS ∧
        fx = fileIndex c1 ∧ fy = 8 - digitVal c2 ∧
        tx = fileIndex c3 ∧ ty = 8 - digitVal c4) ∧
    (∀ s : List Char, (normalizeMove s).length ≠ 4 → parse_move s = none) ∧
    (∀ (s : List Char) (c1 c2 c3 c4 : Char), normalizeMove s = [c1, c2, c3, c4] →
      c1 ∉ FILES ∨ c3 ∉ FILES ∨ c2 ∉ RANKS ∨ c4 ∉ RANKS → parse_move s = none) ∧
    parse_move ("a8h1".toList) = some (0, 0, 7, 7) ∧
    parse_move ("h1a8".toList) = some (7, 7, 0, 0) := by
  refine ⟨?_, ?_, ?_, ?_, ?_⟩
  · intro s fx fy tx ty h
    exact parse_move_eq_some_iff.mp h
  · intro s hlen
    unfold parse_move
    rcases hm : normalizeMove s with _ | ⟨a, _ | ⟨b2, _ | ⟨c3, _ | ⟨d4, _ | ⟨e5, t⟩⟩⟩⟩⟩ <;>
      simp only [hm] <;>
      first
      | rfl
      | (exfalso; rw [hm] at hlen; simp at hlen)
  · intro s c1 c2 c3 c4 heq hbad
    unfold parse_move
    simp only [heq]
    rw [if_neg (by tauto)]
  · rfl
  · rfl

/-- C6 witness: concrete rejections for a bad length and a bad file letter,
and the mapping inversion at "e2e4". -/
theorem parse_move_mapping_and_rejection_witness :
    parse_move ("e2e".toList) = none ∧ parse_move ("i2e4".toList) = none :=
  ⟨parse_move_mapping_and_rejection.2.1 ("e2e".toList) (by decide),
   parse_move_mapping_and_rejection.2.2.1 ("i2e4".toList) 'i' '2' 'e' '4' (by rfl)
     (by decide)⟩

/-- Any occupied destination of the pawn branch holds an enemy piece. -/
theorem pawnMoves_not_friendly {b : Board} {c : Char} {x y : Int} {q : Int × Int}
    (hq : q ∈ pawnMoves b c x y) (hocc : atB b q.1 q.2 ≠ '.') :
    color (atB b q.1 q.2) ≠ some c := by
  intro hcol
  unfold pawnMoves at hq
  generalize (if c = 'w' then (-1 : Int) else 1) = d at hq
  generalize (if c = 'w' then (6 : Int) else 1) = sr at hq
  rw [List.mem_append] at hq
  rcases hq with hf | hcap
  · split at hf
    next hcond =>
      rw [Bool.and_eq_true, decide_eq_true_eq] at hcond
      rcases List.mem_cons.mp hf with rfl | hf2
      · exact hocc hcond.2
      · split at hf2
        next hcond2 =>
          rw [Bool.and_eq_true, decide_eq_true_eq, decide_eq_true_eq] at hcond2
          rw [List.mem_singleton] at hf2
          subst hf2
          exact hocc hcond2.2
        next => cases hf2
    next => cases hf
  · rw [List.mem_filterMap] at hcap
    obtain ⟨dxx, _, hsome⟩ := hcap
    dsimp only [] at hsome
    split at hsome
    next hcond =>
      rw [Bool.and_eq_true, Bool.and_eq_true, decide_eq_true_eq,
        decide_eq_true_eq] at hcond
      cases Option.some.inj hsome
      exact hcond.2 hcol
    next => cases hsome

/-- C2: no destination produced by `moves_for` is occupied by a piece of the
same color as the piece on the source square. -/
theorem moves_for_no_friendly_destination (b : Board) (x y : Int) (q : Int × Int)
    (hq : q ∈ moves_for b x y) (hocc : atB b q.1 q.2 ≠ '.') :
    color (atB b q.1 q.2) ≠ color (atB b x y) := by
  cases hc : color (atB b x y) with
  | none =>
    rw [moves_for_of_color_none hc] at hq
    cases hq
  | some c =>
    intro hcol
    have hfr : friendlyAt b c q.1 q.2 = true := friendlyAt_eq_true_iff.mpr ⟨hocc, hcol⟩
    by_cases hp : (atB b x y).toLower = 'p'
    · rw [moves_for_pawn hc hp] at hq
      exact pawnMoves_not_friendly hq hocc hcol
    · by_cases hn : (atB b x y).toLower = 'n'
      · rw [moves_for_knight hc hn] at hq
        rw [mem_foldl_append] at hq
        rcases hq with h | ⟨o, _, hmem⟩
        · cases h
        · obtain ⟨rfl, _, hfl⟩ := mem_addSq.mp hmem
          cases hfr.symm.trans hfl
      · rw [moves_for_other hc hp hn] at hq
        rw [List.mem_append, List.mem_append] at hq
        have hray : ∀ {dx dy : Int}, q ∈ ray b c x y dx dy → False := by
          intro dx dy hmem
          have hthis := ray_mem_not_friendly hmem
          rw [hfr] at hthis
          cases hthis
        rcases hq with (hbq | hrq) | hk
        · split at hbq
          next =>
            rw [List.mem_append, List.mem_append, List.mem_append] at hbq
            rcases hbq with ((h | h) | h) | h <;> exact hray h
          next => cases hbq
        · split at hrq
          next =>
            rw [List.mem_append, List.mem_append, List.mem_append] at hrq
            rcases hrq with ((h | h) | h) | h <;> exact hray h
          next => cases hrq
        · split at hk
          next =>
            rw [mem_foldl_append] at hk
            rcases hk with h | ⟨o, _, hmem⟩
            · cases h
            · obtain ⟨rfl, _, hfl⟩ := mem_addSq.mp hmem
              cases hfr.symm.trans hfl
          next => cases hk

/-- C2 witness: the queen on d2 may capture the enemy pawn on d5 — the
destination is occupied, and its color differs from the queen's. -/
theorem moves_for_no_friendly_destination_witness :
    color (atB boardQueenPawn (3, 3).1 (3, 3).2) ≠ color (atB boardQueenPawn 3 6) :=
  moves_for_no_friendly_destination boardQueenPawn 3 6 (3, 3) (by decide) (by decide)

/-- C3: for a sliding piece, a ray in a unit direction contains the square
`i` steps out iff that square is in bounds, every strictly earlier square on
the ray is empty, and the square itself is empty or enemy-occupied — so the
ray keeps consecutive empty squares, includes a first enemy blocker, excludes
a friendly blocker, and never passes the first occupant. -/
theorem ray_first_blocker_spec (b : Board) (x y dx dy : Int) (c piece : Char) (i : Nat)
    (hpiece : atB b x y = piece) (hc : color piece = some c)
    (hslide : piece.toLower = 'b' ∨ piece.toLower = 'r' ∨ piece.toLower = 'q')
    (hdir : (dx, dy) ∈ slideDirs) (hxy : in_bounds x y = true) (hi : 1 ≤ i) :
    ((x + i * dx, y + i * dy) ∈ ray b c x y dx dy ↔
      in_bounds (x + i * dx) (y + i * dy) = true ∧
      (∀ j : Nat, j < i → 1 ≤ j → atB b (x + j * dx) (y + j * dy) = '.') ∧
      (atB b (x + i * dx) (y + i * dy) = '.' ∨
        color (atB b (x + i * dx) (y + i * dy)) ≠ some c)) := by
  have hd : (-1 ≤ dx ∧ dx ≤ 1) ∧ (-1 ≤ dy ∧ dy ≤ 1) ∧ ¬(dx = 0 ∧ dy = 0) := by
    fin_cases hdir <;> norm_num
  exact ray_mem_iff i hd.1 hd.2.1 hd.2.2 hxy hi

/-- C3 witness: three steps up the d-file from the queen on d2 reaches the
enemy pawn on d5, which the ray includes as its final square. -/
theorem ray_first_blocker_spec_witness :
    ((3 : Int) + (3 : Nat) * 0, (6 : Int) + (3 : Nat) * (-1)) ∈
      ray boardQueenPawn 'w' 3 6 0 (-1) :=
  (ray_first_blocker_spec boardQueenPawn 3 6 0 (-1) 'w' 'Q' 3 rfl rfl
    (by decide) (by decide) (by decide) (by decide)).mpr (by decide)

/-- C4: `is_in_check` returns false when no king of the queried side stands
on the board; otherwise, with the king found at scan square `(ky, kx)`, it
returns true iff some in-bounds square holds a piece of the opposing color
whose pseudo-legal moves contain the king's square. -/
theorem is_in_check_spec (b : Board) (side : Char) :
    ((∀ ax ay : Int, 0 ≤ ax → ax < 8 → 0 ≤ ay → ay < 8 →
        atB b ax ay ≠ (if side = 'w' then 'K' else 'k')) → is_in_check b side = false) ∧
    (∀ ky kx : Int, kingSquare b side = some (ky, kx) →
      (is_in_check b side = true ↔
        ∃ ax ay : Int, (0 ≤ ax ∧ ax < 8 ∧ 0 ≤ ay ∧ ay < 8) ∧
          ∃ pc : Char, color (atB b ax ay) = some pc ∧ pc ≠ side ∧
            (kx, ky) ∈ moves_for b ax ay)) := by
  constructor
  · intro hno
    have hks : kingSquare b side = none := by
      unfold kingSquare
      rw [List.find?_eq_none]
      rintro ⟨qy, qx⟩ hmem
      rw [mem_scanSquares] at hmem
      simp only [decide_eq_true_eq]
      exact hno qx qy hmem.2.2.1 hmem.2.2.2 hmem.1 hmem.2.1
    unfold is_in_check
    rw [hks]
  · intro ky kx hk
    unfold is_in_check
    simp only [hk]
    rw [List.any_eq_true]
    constructor
    · rintro ⟨⟨ry, rx⟩, hmem, hpred⟩
      rw [mem_scanSquares] at hmem
      cases hcol : color (atB b rx ry) with
      | none =>
        rw [hcol] at hpred
        cases hpred
      | some pc =>
        simp only [hcol, Bool.and_eq_true, decide_eq_true_eq] at hpred
        exact ⟨rx, ry, ⟨hmem.2.2.1, hmem.2.2.2, hmem.1, hmem.2.1⟩, pc, hcol,
          hpred.1, hpred.2⟩
    · rintro ⟨ax, ay, ⟨h1, h2, h3, h4⟩, pc, hcol, hpc, hmov⟩
      refine ⟨(ay, ax), mem_scanSquares.mpr ⟨h3, h4, h1, h2⟩, ?_⟩
      simp only [hcol, Bool.and_eq_true, decide_eq_true_eq]
      exact ⟨hpc, hmov⟩

/-- C4 witness: on `boardCheck` the black king at scan square (0, 4) is
attacked by the white queen on e2, so `is_in_check` reports true. -/
theorem is_in_check_spec_witness : is_in_check boardCheck 'b' = true :=
  ((is_in_check_spec boardCheck 'b').2 0 4 (by rfl)).mpr
    ⟨4, 6, by decide, 'w', by decide, by decide, by decide⟩

/-- C8: a pawn on its starting rank with both forward squares empty gets
exactly two straight-forward destinations, plus one diagonal capture for each
enemy-occupied forward diagonal; off the starting rank it gets at most one
straight-forward destination. -/
theorem pawn_forward_and_capture_counts (b : Board) (x y d srow : Int) (c : Char)
    (hc : color (atB b x y) = some c) (hp : (atB b x y).toLower = 'p')
    (hd : d = (if c = 'w' then -1 else 1)) (hsrow : srow = (if c = 'w' then 6 else 1))
    (hx1 : 0 ≤ x) (hx2 : x < 8) :
    (y = srow → atB b x (y + d) = '.' → atB b x (y + 2 * d) = '.' →
      ((moves_for b x y).filter (fun q => decide (q.1 = x))).length = 2 ∧
      ((moves_for b x y).filter (fun q => decide (q.1 ≠ x))).length =
        ((if (in_bounds (x + -1) (y + d) && decide (atB b (x + -1) (y + d) ≠ '.') &&
            decide (color (atB b (x + -1) (y + d)) ≠ some c)) = true then 1 else 0) +
         (if (in_bounds (x + 1) (y + d) && decide (atB b (x + 1) (y + d) ≠ '.') &&
            decide (color (atB b (x + 1) (y + d)) ≠ some c)) = true then 1 else 0))) ∧
    (y ≠ srow →
      ((moves_for b x y).filter (fun q => decide (q.1 = x))).length ≤ 1) := by
  have hdd : (d = -1 ∧ srow = 6) ∨ (d = 1 ∧ srow = 1) := by
    rcases color_cases hc with rfl | rfl <;> simp [hd, hsrow]
  rw [moves_for_pawn hc hp]
  unfold pawnMoves
  rw [← hd, ← hsrow]
  dsimp only []
  have hne1 : ¬((x + -1 : Int) = x) := by omega
  have hne2 : ¬((x + 1 : Int) = x) := by omega
  constructor
  · intro hy h1 h2
    have hib : in_bounds x (y + d) = true := by
      rw [in_bounds_iff]
      rcases hdd with ⟨e1, e2⟩ | ⟨e1, e2⟩ <;> omega
    have hcond1 : (in_bounds x (y + d) && decide (atB b x (y + d) = '.')) = true := by
      rw [hib, h1]
      simp
    have hcond2 : (decide (y = srow) && decide (atB b x (y + 2 * d) = '.')) = true := by
      rw [h2, hy]
      simp
    rw [if_pos hcond1, if_pos hcond2]
    by_cases hC1 : in_bounds (x + -1) (y + d) = true ∧
        ¬atB b (x + -1) (y + d) = '.' ∧ ¬color (atB b (x + -1) (y + d)) = some c <;>
      by_cases hC2 : in_bounds (x + 1) (y + d) = true ∧
        ¬atB b (x + 1) (y + d) = '.' ∧ ¬color (atB b (x + 1) (y + d)) = some c <;>
      simp [List.filterMap_cons, List.filter, hC1, hC2, hne1, hne2, and_assoc]
  · intro hy
    by_cases hC0 : in_bounds x (y + d) = true ∧ atB b x (y + d) = '.' <;>
      by_cases hC1 : in_bounds (x + -1) (y + d) = true ∧
        ¬atB b (x + -1) (y + d) = '.' ∧ ¬color (atB b (x + -1) (y + d)) = some c <;>
      by_cases hC2 : in_bounds (x + 1) (y + d) = true ∧
        ¬atB b (x + 1) (y + d) = '.' ∧ ¬color (atB b (x + 1) (y + d)) = some c <;>
      simp [List.filterMap_cons, List.filter, hy, hC0, hC1, hC2, hne1, hne2, and_assoc]

/-- C8 witness: the white e2 pawn on the initial board has exactly the two
forward pushes and no diagonal captures, and after e2e4 the e4 pawn (off its
starting rank) has at most one forward destination. -/
theorem pawn_forward_and_capture_counts_witness :
    (((moves_for new_board 4 6).filter (fun q => decide (q.1 = 4))).length = 2 ∧
      ((moves_for new_board 4 6).filter (fun q => decide (q.1 ≠ 4))).length =
        ((if (in_bounds (4 + -1) (6 + -1) &&
            decide (atB new_board (4 + -1) (6 + -1) ≠ '.') &&
            decide (color (atB new_board (4 + -1) (6 + -1)) ≠ some 'w')) = true
          then 1 else 0) +
         (if (in_bounds (4 + 1) (6 + -1) &&
            decide (atB new_board (4 + 1) (6 + -1) ≠ '.') &&
            decide (color (atB new_board (4 + 1) (6 + -1)) ≠ some 'w')) = true
          then 1 else 0))) :=
  (pawn_forward_and_capture_counts new_board 4 6 (-1) 6 'w' (by decide) (by decide)
    (by decide) (by decide) (by decide) (by decide)).1 rfl (by decide) (by decide)

/-- C1: every rejection path of `attemptMove` returns the incoming state
unchanged, so re-attempting the same input from the resulting state yields
the identical rejection (same reason, same state); an accepted move flips
the side to move to the other color. -/
theorem attemptMove_rejection_frame_and_turn_flip (s : GameState) (input : List Char) :
    (∀ r : Reason, (attemptMove s input).2 = some r →
      (attemptMove s input).1 = s ∧
      attemptMove ((attemptMove s input).1) input = attemptMove s input) ∧
    ((attemptMove s input).2 = none →
      (attemptMove s input).1.turn = otherTurn s.turn) := by
  rcases hp : parse_move input with _ | ⟨fx, fy, tx, ty⟩
  · have hA : attemptMove s input = (s, some .BadFormat) := by
      unfold attemptMove
      rw [hp]
    refine ⟨fun r hr => ⟨by rw [hA], by rw [hA]; exact hA⟩, fun hnone => ?_⟩
    rw [hA] at hnone
    cases hnone
  · by_cases h1 : atB s.board fx fy = '.' ∨ color (atB s.board fx fy) ≠ some s.turn
    · have hA : attemptMove s input = (s, some .NoPieceOrWrongColor) := by
        unfold attemptMove
        simp only [hp]
        rw [if_pos h1]
      refine ⟨fun r hr => ⟨by rw [hA], by rw [hA]; exact hA⟩, fun hnone => ?_⟩
      rw [hA] at hnone
      cases hnone
    · by_cases h2 : (tx, ty) ∉ moves_for s.board fx fy
      · have hA : attemptMove s input = (s, some .IllegalDestination) := by
          unfold attemptMove
          simp only [hp]
          rw [if_neg h1, if_pos h2]
        refine ⟨fun r hr => ⟨by rw [hA], by rw [hA]; exact hA⟩, fun hnone => ?_⟩
        rw [hA] at hnone
        cases hnone
      · by_cases h3 : is_in_check
            (if (atB s.board fx fy).toLower = 'p' ∧ (ty = 0 ∨ ty = 7) then
              setB (setB (setB s.board tx ty (atB s.board fx fy)) fx fy '.') tx ty
                (if s.turn = 'w' then 'Q' else 'q')
            else setB (setB s.board tx ty (atB s.board fx fy)) fx fy '.') s.turn = true
        · have hA : attemptMove s input = (s, some .LeavesKingInCheck) := by
            unfold attemptMove
            simp only [hp]
            rw [if_neg h1, if_neg h2, if_pos h3]
          refine ⟨fun r hr => ⟨by rw [hA], by rw [hA]; exact hA⟩, fun hnone => ?_⟩
          rw [hA] at hnone
          cases hnone
        · refine ⟨fun r hr => ?_, fun _ => ?_⟩
          · exfalso
            unfold attemptMove at hr
            simp only [hp] at hr
            rw [if_neg h1, if_neg h2, if_neg h3] at hr
            exact Option.noConfusion hr
          · unfold attemptMove
            simp only [hp]
            rw [if_neg h1, if_neg h2, if_neg h3]

/-- C1 witness: from the initial state, "e2e5" is rejected with the state
unchanged and the second attempt identical, while "e2e4" is accepted and
hands the move to Black. -/
theorem attemptMove_rejection_frame_and_turn_flip_witness :
    ((attemptMove newGame ("e2e5".toList)).1 = newGame ∧
      attemptMove ((attemptMove newGame ("e2e5".toList)).1) ("e2e5".toList) =
        attemptMove newGame ("e2e5".toList)) ∧
    (attemptMove newGame ("e2e4".toList)).1.turn = otherTurn newGame.turn :=
  ⟨(attemptMove_rejection_frame_and_turn_flip newGame ("e2e5".toList)).1
      Reason.IllegalDestination (by rfl),
   (attemptMove_rejection_frame_and_turn_flip newGame ("e2e4".toList)).2 (by rfl)⟩

/-- C5: a committed move of a pawn onto row 0 or 7 leaves a queen of the
pawn's own color on the destination square — 'Q' for a White pawn (in
particular on row 0), 'q' for Black — never the pawn glyph itself. -/
theorem promotion_to_queen (s : GameState) (input : List Char) (s' : GameState)
    (fx fy tx ty : Int)
    (hWf : Wf s.board)
    (ha : attemptMove s input = (s', none))
    (hp : parse_move input = some (fx, fy, tx, ty))
    (hpawn : (atB s.board fx fy).toLower = 'p')
    (hty : ty = 0 ∨ ty = 7) :
    atB s'.board tx ty =
      (if color (atB s.board fx fy) = some 'w' then 'Q' else 'q') ∧
    atB s'.board tx ty ≠ 'P' ∧ atB s'.board tx ty ≠ 'p' := by
  unfold attemptMove at ha
  simp only [hp] at ha
  by_cases h1 : atB s.board fx fy = '.' ∨ color (atB s.board fx fy) ≠ some s.turn
  · rw [if_pos h1] at ha
    cases congrArg Prod.snd ha
  · rw [if_neg h1] at ha
    by_cases h2 : (tx, ty) ∉ moves_for s.board fx fy
    · rw [if_pos h2] at ha
      cases congrArg Prod.snd ha
    · rw [if_neg h2,
        if_pos (show (atB s.board fx fy).toLower = 'p' ∧ (ty = 0 ∨ ty = 7) from
          ⟨hpawn, hty⟩)] at ha
      by_cases h3 : is_in_check
          (setB (setB (setB s.board tx ty (atB s.board fx fy)) fx fy '.') tx ty
            (if s.turn = 'w' then 'Q' else 'q')) s.turn = true
      · rw [if_pos h3] at ha
        cases congrArg Prod.snd ha
      · rw [if_neg h3] at ha
        have hb : s'.board =
            setB (setB (setB s.board tx ty (atB s.board fx fy)) fx fy '.') tx ty
              (if s.turn = 'w' then 'Q' else 'q') :=
          (congrArg (fun p => p.1.board) ha).symm
        have hbounds := parse_move_bounds hp
        have hWf1 : Wf (setB s.board tx ty (atB s.board fx fy)) := Wf_setB _ _ _ hWf
        have hWf2 : Wf (setB (setB s.board tx ty (atB s.board fx fy)) fx fy '.') :=
          Wf_setB _ _ _ hWf1
        have hQ : atB s'.board tx ty = (if s.turn = 'w' then 'Q' else 'q') := by
          rw [hb]
          exact atB_setB_same _ hWf2 hbounds.2.2.2.2.1 hbounds.2.2.2.2.2.1
            hbounds.2.2.2.2.2.2.1 hbounds.2.2.2.2.2.2.2
        have hcol : color (atB s.board fx fy) = some s.turn :=
          not_not.mp (not_or.mp h1).2
        refine ⟨?_, ?_⟩
        · rw [hQ, hcol]
          by_cases hw : s.turn = 'w'
          · rw [if_pos hw, if_pos (by rw [hw])]
          · rw [if_neg hw, if_neg (fun hcontra => hw (Option.some.inj hcontra))]
        · rw [hQ]
          by_cases hw : s.turn = 'w'
          · rw [if_pos hw]
            exact ⟨by decide, by decide⟩
          · rw [if_neg hw]
            exact ⟨by decide, by decide⟩

/-- C5 witness: the lone white pawn pushed a7→a8 leaves 'Q' on a8. -/
theorem promotion_to_queen_witness :
    atB (GameState.mk boardPromoAfter 'b').board 0 0 =
      (if color (atB boardPromo 0 1) = some 'w' then 'Q' else 'q') ∧
    atB (GameState.mk boardPromoAfter 'b').board 0 0 ≠ 'P' ∧
    atB (GameState.mk boardPromoAfter 'b').board 0 0 ≠ 'p' :=
  promotion_to_queen ⟨boardPromo, 'w'⟩ ("a7a8".toList) ⟨boardPromoAfter, 'b'⟩ 0 1 0 0
    ⟨rfl, by decide⟩ (by rfl) (by rfl) (by rfl) (Or.inl rfl)

end Chess
